import Mathlib

/-!
Shallow embedding, in Lean 4, of the router backup script `backup_mkt.py`
(fleet configuration backup over SSH/SFTP plus local retention rotation),
together with proofs of the behavioural properties stated in its
specification.

File names are modelled as `List Char`; Python `str.replace`,
`str.endswith` and substring membership are given faithful executable
counterparts.  Timestamps are modelled as exact rationals (Python floats
carry no rounding in the magnitudes involved here, and the comparisons at
issue are stated about exact day counts).
-/

namespace BackupMkt

/-- Python's `s.replace(pat, rep)` on character lists: scan left to right,
replacing each non-overlapping occurrence of `pat` by `rep`.  The `fuel`
argument only serves to make the recursion structural; any
`fuel ≥ s.length` gives the same result, and `replaceAll` instantiates it
that way. -/
def replaceAllFuel (pat rep : List Char) : Nat → List Char → List Char
  | 0, s => s
  | _ + 1, [] => []
  | fuel + 1, c :: rest =>
    if pat ≠ [] ∧ pat.isPrefixOf (c :: rest) then
      rep ++ replaceAllFuel pat rep fuel ((c :: rest).drop pat.length)
    else
      c :: replaceAllFuel pat rep fuel rest

/-- Python's `s.replace(pat, rep)`. -/
def replaceAll (pat rep s : List Char) : List Char :=
  replaceAllFuel pat rep s.length s

/-- Whether `pat` occurs as a contiguous substring of `s` (Python's `pat in s`). -/
def hasOccur (pat : List Char) : List Char → Bool
  | [] => pat.isEmpty
  | c :: rest => pat.isPrefixOf (c :: rest) || hasOccur pat rest

/-- No nonempty proper suffix of `pat` is also a prefix of `pat` (`pat`
has no border), hence two occurrences of `pat` can never overlap. -/
def sinBorde (pat : List Char) : Bool :=
  (List.range pat.length).all fun k =>
    decide (k = 0) || !((pat.drop k).isPrefixOf pat)

/-- No nonempty suffix of `pat` of length `k ≤ t.length` coincides with the
length-`k` prefix of `t`: an occurrence of `pat` can never end strictly
inside an occurrence of `t` placed at the end of the string. -/
def sinSolape (pat t : List Char) : Bool :=
  (List.range (pat.length + 1)).all fun k =>
    decide (k = 0) || decide (t.length < k) ||
      !(pat.drop (pat.length - k) == t.take k)

/-- No nonempty proper suffix of `pat` is a prefix of `b`: an occurrence of
`pat` can never start strictly before `b` and continue into `b`. -/
def sinColaPrefijo (pat b : List Char) : Bool :=
  (List.range pat.length).all fun k =>
    decide (k = 0) || !((pat.drop k).isPrefixOf b)

/-- No nonempty proper suffix of `pat` starts with the character `c`. -/
def colasSinCabeza (pat : List Char) (c : Char) : Bool :=
  (List.range pat.length).all fun k =>
    decide (k = 0) || !((pat.drop k).head? == some c)

/-! ### Retention Rotator (`renombrar_backups_antiguos`) -/

/-- The constant `DIAS_MAXIMOS = 6`: days after which a backup counts as old. -/
def DIAS_MAXIMOS : ℕ := 6

/-- A directory entry: file name plus creation timestamp
(`os.path.getctime`), in seconds. -/
structure FileEntry where
  nombre : List Char
  fechaCreacion : ℚ
deriving DecidableEq

/-- The test `archivo.endswith((".rsc", ".backup")) and not
archivo.endswith(("-old.rsc", "-old.backup"))`: the rotation-candidate
test of `renombrar_backups_antiguos`. -/
def esCandidato (archivo : List Char) : Bool :=
  (".rsc".data.isSuffixOf archivo || ".backup".data.isSuffixOf archivo) &&
    !("-old.rsc".data.isSuffixOf archivo || "-old.backup".data.isSuffixOf archivo)

/-- The rename `archivo.replace(".rsc", "-old.rsc").replace(".backup", "-old.backup")`:
the new name given to an old backup. -/
def nuevoNombre (archivo : List Char) : List Char :=
  replaceAll ".backup".data "-old.backup".data
    (replaceAll ".rsc".data "-old.rsc".data archivo)

/-- The quantity `(ahora - fecha_creacion) / (24 * 3600)`: age of a file in days. -/
def antiguedadDias (ahora fechaCreacion : ℚ) : ℚ :=
  (ahora - fechaCreacion) / (24 * 3600)

/-- One iteration of the rotator's loop on one directory entry: the
(possibly renamed) entry, plus whether `os.rename` was performed. -/
def renombrarUno (ahora : ℚ) (f : FileEntry) : FileEntry × Bool :=
  if esCandidato f.nombre = true then
    if antiguedadDias ahora f.fechaCreacion > (DIAS_MAXIMOS : ℚ) then
      (⟨nuevoNombre f.nombre, f.fechaCreacion⟩, true)
    else
      (f, false)
  else
    (f, false)

/-- The rotator `renombrar_backups_antiguos`: scan the directory entries, renaming each
old rotation candidate; returns the new directory state together with the
number of renames performed. -/
def renombrar_backups_antiguos (ahora : ℚ) (dir : List FileEntry) :
    List FileEntry × ℕ :=
  match dir with
  | [] => ([], 0)
  | f :: resto =>
    let paso := renombrarUno ahora f
    let resto' := renombrar_backups_antiguos ahora resto
    (paso.1 :: resto'.1, (if paso.2 then 1 else 0) + resto'.2)

/-! ### File Fetcher (`descargar_archivo` / `descargar_archivos`) -/

/-- The string `f"{router_name}_{current_time}_{archivo}"`: the local name given to a
downloaded file in `descargar_archivo`. -/
def nuevo_nombre_archivo (router_name current_time archivo : List Char) :
    List Char :=
  router_name ++ "_".data ++ current_time ++ "_".data ++ archivo

/-- The list `archivos_deseados = ["latest.rsc", "latest.backup"]`: the fixed
allow-list of remote files. -/
def archivos_deseados : List (List Char) :=
  ["latest.rsc".data, "latest.backup".data]

/-- The exception classes that the fetcher's `except` clauses mention.
In Python, `FileNotFoundError` and `PermissionError` are subclasses of
`OSError`; `paramiko.SSHException` is not. -/
inductive ErrorRemoto where
  | archivoNoEncontrado
  | permisoDenegado
  | errorSSH
  | errorSistema
deriving DecidableEq

/-- Python's exception hierarchy: which of the modelled exceptions are
caught by an `except OSError` clause. -/
def esOSError : ErrorRemoto → Bool
  | .archivoNoEncontrado => true
  | .permisoDenegado => true
  | .errorSSH => false
  | .errorSistema => true

/-- Observable events of one `descargar_archivos` call. -/
inductive EventoDescarga where
  | intentoGet (archivo : List Char)
  | infoDescargado (archivo : List Char)
  | errorArchivo (archivo : List Char) (e : ErrorRemoto)
  | avisoFaltante (archivo : List Char)
  | errorExterno (e : ErrorRemoto)
  | cierreSesion
deriving DecidableEq

/-- The environment of one `descargar_archivos` call: the outcome of
`ssh_client.open_sftp()`, of `sftp_client.listdir(".")` and of each
`sftp_client.get(...)`. -/
structure OraculoRemoto where
  abrirSftp : Except ErrorRemoto Unit
  listdir : Except ErrorRemoto (List (List Char))
  get : List Char → Except ErrorRemoto Unit

/-- A computation's outcome: a value or an uncaught exception, together
with the events (log lines, transfers, session close) it produced. -/
abbrev Resultado (α : Type) := Except ErrorRemoto α × List EventoDescarga

/-- The function `descargar_archivo`: one `sftp_client.get(f"/{archivo}", ...)` wrapped
in `except` clauses for `FileNotFoundError`, `PermissionError`,
`paramiko.SSHException` and `OSError` (each logging an error and
returning normally). -/
def descargar_archivo (o : OraculoRemoto) (archivo : List Char) :
    Resultado Unit :=
  match o.get archivo with
  | .ok _ => (.ok (), [.intentoGet archivo, .infoDescargado archivo])
  | .error .archivoNoEncontrado =>
    (.ok (), [.intentoGet archivo, .errorArchivo archivo .archivoNoEncontrado])
  | .error .permisoDenegado =>
    (.ok (), [.intentoGet archivo, .errorArchivo archivo .permisoDenegado])
  | .error .errorSSH =>
    (.ok (), [.intentoGet archivo, .errorArchivo archivo .errorSSH])
  | .error .errorSistema =>
    (.ok (), [.intentoGet archivo, .errorArchivo archivo .errorSistema])

/-- The `for archivo in archivos_deseados` loop of `descargar_archivos`:
present files are fetched via `descargar_archivo`, absent ones produce a
warning; an uncaught exception would abort the remaining iterations. -/
def bucleDescargas (o : OraculoRemoto) (remotos : List (List Char)) :
    List (List Char) → Resultado Unit
  | [] => (.ok (), [])
  | archivo :: resto =>
    let paso : Resultado Unit :=
      if archivo ∈ remotos then descargar_archivo o archivo
      else (.ok (), [.avisoFaltante archivo])
    match paso with
    | (.ok _, evs) =>
      let siguiente := bucleDescargas o remotos resto
      (siguiente.1, evs ++ siguiente.2)
    | (.error e, evs) => (.error e, evs)

/-- The body of the `try` block of `descargar_archivos`: open the SFTP
session, list the remote working directory once, then run the loop. -/
def cuerpoDescargas (o : OraculoRemoto) : Resultado Unit :=
  match o.abrirSftp with
  | .error e => (.error e, [])
  | .ok _ =>
    match o.listdir with
    | .error e => (.error e, [])
    | .ok remotos => bucleDescargas o remotos archivos_deseados

/-- The function `descargar_archivos`: the `try` body, its `except paramiko.SSHException`
and `except OSError` clauses (log and return normally), and the `finally`
block closing the session. -/
def descargar_archivos (o : OraculoRemoto) : Resultado Unit :=
  let cuerpo := cuerpoDescargas o
  let trasExcepciones : Resultado Unit :=
    match cuerpo with
    | (.ok _, evs) => (.ok (), evs)
    | (.error e, evs) =>
      if e = .errorSSH then (.ok (), evs ++ [.errorExterno e])
      else if esOSError e = true then (.ok (), evs ++ [.errorExterno e])
      else (.error e, evs)
  (trasExcepciones.1, trasExcepciones.2 ++ [.cierreSesion])

/-- Number of `ssh_client.close()` events in a trace. -/
def cuentaCierres (evs : List EventoDescarga) : ℕ :=
  (evs.filter fun e => e = EventoDescarga.cierreSesion).length

/-! ### Remote paths (`listdir(".")` versus `get(f"/{archivo}", ...)`) -/

/-- The argument of the one `listdir` call: the session's current working
directory, `"."`. -/
def rutaListado : List Char := ".".data

/-- The remote path passed to `sftp_client.get`: `f"/{archivo}"`. -/
def rutaRemota (archivo : List Char) : List Char := '/' :: archivo

/-- Modelled from POSIX path semantics (the SFTP server side, not part of
the script): resolving a path against the session's current working
directory `cwd` — an absolute path stands alone, `"."` denotes `cwd`,
and any other relative path is joined under `cwd`. -/
def resolver (cwd ruta : List Char) : List Char :=
  if ruta.head? = some '/' then ruta
  else if ruta = ".".data then cwd
  else cwd ++ '/' :: ruta

/-- Modelled from POSIX path semantics: the directory containing a path —
everything before the last '/', or the root "/" when the only '/' is the
leading one. -/
def directorioDe (ruta : List Char) : List Char :=
  let pre := (ruta.reverse.dropWhile (fun c => !(c = '/'))).reverse
  if pre = ['/'] then ['/'] else pre.dropLast

/-! ### Fleet Orchestrator: reading `rt.csv` -/

/-- One CSV record: its list of fields. -/
abbrev Fila := List (List Char)

/-- Observable events of the orchestrator's dispatch phase. -/
inductive EventoOrq where
  | despacho (ip nombre : List Char)
  | abortoConfig
deriving DecidableEq

/-- The router-list file: either missing (`open` raises) or a list of
records. -/
inductive ListaRouters where
  | ausente
  | contenido (filas : List Fila)

/-- The `for fila in lector_csv` loop: each record in turn yields
`executor.submit(respaldar_router, fila[0], fila[1], ...)`; a record with
fewer than two fields raises `IndexError` at `fila[0]`/`fila[1]`,
aborting the loop (and the run) at that point. -/
def procesarFilas : List Fila → List EventoOrq
  | [] => []
  | (ip :: nombre :: _) :: resto => .despacho ip nombre :: procesarFilas resto
  | _ :: _ => [.abortoConfig]

/-- The orchestrator's read-and-dispatch phase: a missing `rt.csv` makes
`open` raise before anything is dispatched; otherwise the records are
streamed through `procesarFilas`. -/
def leerYDespachar : ListaRouters → List EventoOrq
  | .ausente => [.abortoConfig]
  | .contenido filas => procesarFilas filas

/-- A record with at least two fields (so `fila[0]`, `fila[1]` succeed). -/
def filaBienFormada : Fila → Bool
  | _ :: _ :: _ => true
  | _ => false

/-- The `executor.submit` event for a well-formed record. -/
def despachoDe : Fila → EventoOrq
  | ip :: nombre :: _ => .despacho ip nombre
  | _ => .abortoConfig

/-- Number of dispatched jobs in an orchestrator trace. -/
def despachos (evs : List EventoOrq) : ℕ :=
  (evs.filter fun e =>
    match e with
    | .despacho _ _ => true
    | .abortoConfig => false).length

/-! ### Fleet Orchestrator: worker pool and barrier -/

/-- The bound `max_workers=4` of the `ThreadPoolExecutor`. -/
def MAX_WORKERS : ℕ := 4

/-- Global state of one orchestrator run: how many router records remain to
be submitted, how many submitted jobs wait for a free worker, how many
workers are connecting (`conectar_ssh` in progress, no session yet), how
many hold an open session (`descargar_archivos` in progress), how many
jobs have finished, and how many times the Retention Rotator has run. -/
structure Fleet where
  porLeer : ℕ
  enCola : ℕ
  conectando : ℕ
  sesionAbierta : ℕ
  terminados : ℕ
  rotaciones : ℕ
deriving DecidableEq

/-- Interleaved small-step semantics of the run: the main thread submits
jobs one record at a time; a queued job starts only when fewer than
`MAX_WORKERS` workers are busy; a connecting job either fails (logged,
job over) or opens a session; a fetching job closes its session and
finishes; and the main thread runs the Retention Rotator exactly when the
`with ThreadPoolExecutor` block has exited, i.e. when every submitted job
has completed (`shutdown(wait=True)`) — and it has not rotated yet. -/
inductive Paso : Fleet → Fleet → Prop where
  | submit (r q c s t rot : ℕ) :
      Paso ⟨r + 1, q, c, s, t, rot⟩ ⟨r, q + 1, c, s, t, rot⟩
  | iniciar (r q c s t rot : ℕ) (h : c + s < MAX_WORKERS) :
      Paso ⟨r, q + 1, c, s, t, rot⟩ ⟨r, q, c + 1, s, t, rot⟩
  | conectarFalla (r q c s t rot : ℕ) :
      Paso ⟨r, q, c + 1, s, t, rot⟩ ⟨r, q, c, s, t + 1, rot⟩
  | conectarOk (r q c s t rot : ℕ) :
      Paso ⟨r, q, c + 1, s, t, rot⟩ ⟨r, q, c, s + 1, t, rot⟩
  | terminarDescarga (r q c s t rot : ℕ) :
      Paso ⟨r, q, c, s + 1, t, rot⟩ ⟨r, q, c, s, t + 1, rot⟩
  | rotar (t : ℕ) :
      Paso ⟨0, 0, 0, 0, t, 0⟩ ⟨0, 0, 0, 0, t, 1⟩

/-- Initial state of a run over `n` router records. -/
def inicial (n : ℕ) : Fleet := ⟨n, 0, 0, 0, 0, 0⟩

/-- States reachable during a run over `n` router records. -/
inductive Alcanzable (n : ℕ) : Fleet → Prop where
  | inicio : Alcanzable n (inicial n)
  | paso {s s' : Fleet} : Alcanzable n s → Paso s s' → Alcanzable n s'

theorem sinBorde_spec (pat : List Char) (h : sinBorde pat = true) :
    ∀ k, 0 < k → k < pat.length → ¬ (pat.drop k <+: pat) := by
  intro k hk hk2 hpre
  have hall := List.all_eq_true.mp h k (List.mem_range.mpr hk2)
  simp only [Bool.or_eq_true, decide_eq_true_eq, Bool.not_eq_true'] at hall
  rcases hall with h0 | h1
  · omega
  · rw [List.isPrefixOf_iff_prefix.mpr hpre] at h1
    exact Bool.true_eq_false.mp h1

theorem sinSolape_spec (pat t : List Char) (h : sinSolape pat t = true) :
    ∀ k, 0 < k → k ≤ pat.length → k ≤ t.length →
      pat.drop (pat.length - k) ≠ t.take k := by
  intro k hk hkp hkt heq
  have hall := List.all_eq_true.mp h k (List.mem_range.mpr (by omega))
  simp only [Bool.or_eq_true, decide_eq_true_eq, Bool.not_eq_true',
    beq_eq_false_iff_ne, ne_eq] at hall
  rcases hall with (h0 | h1) | h2
  · omega
  · omega
  · exact h2 heq

theorem sinColaPrefijo_spec (pat b : List Char) (h : sinColaPrefijo pat b = true) :
    ∀ k, 0 < k → k < pat.length → ¬ (pat.drop k <+: b) := by
  intro k hk hk2 hpre
  have hall := List.all_eq_true.mp h k (List.mem_range.mpr hk2)
  simp only [Bool.or_eq_true, decide_eq_true_eq, Bool.not_eq_true'] at hall
  rcases hall with h0 | h1
  · omega
  · rw [List.isPrefixOf_iff_prefix.mpr hpre] at h1
    exact Bool.true_eq_false.mp h1

theorem replaceAllFuel_nil (pat rep : List Char) (fuel : Nat) :
    replaceAllFuel pat rep fuel [] = [] := by
  cases fuel <;> rfl

theorem hasOccur_of_prefix (pat s : List Char) (hp : pat ≠ []) (h : pat <+: s) :
    hasOccur pat s = true := by
  cases s with
  | nil =>
    exact absurd (List.prefix_nil.mp h) hp
  | cons c rest =>
    simp only [hasOccur, Bool.or_eq_true]
    exact Or.inl (List.isPrefixOf_iff_prefix.mpr h)

theorem hasOccur_cons_false (pat : List Char) (c : Char) (rest : List Char)
    (h : hasOccur pat (c :: rest) = false) :
    pat.isPrefixOf (c :: rest) = false ∧ hasOccur pat rest = false := by
  simpa only [hasOccur, Bool.or_eq_false_iff] using h

theorem replaceAllFuel_of_hasOccur_false (pat rep : List Char)
    (s : List Char) (h : hasOccur pat s = false) :
    ∀ fuel, replaceAllFuel pat rep fuel s = s := by
  induction s with
  | nil => intro fuel; exact replaceAllFuel_nil pat rep fuel
  | cons c rest ih =>
    intro fuel
    obtain ⟨h1, h2⟩ := hasOccur_cons_false pat c rest h
    cases fuel with
    | zero => rfl
    | succ f =>
      rw [replaceAllFuel, if_neg]
      · rw [ih h2]
      · rintro ⟨-, hpre⟩
        rw [h1] at hpre
        exact Bool.false_ne_true hpre

theorem replaceAll_of_hasOccur_false (pat rep s : List Char)
    (h : hasOccur pat s = false) : replaceAll pat rep s = s :=
  replaceAllFuel_of_hasOccur_false pat rep s h s.length

theorem replaceAllFuel_append_pat (pat rep : List Char) (hp : pat ≠ []) :
    ∀ (a : List Char) (fuel : Nat), (a ++ pat).length ≤ fuel →
      hasOccur pat (a ++ pat.dropLast) = false →
      replaceAllFuel pat rep fuel (a ++ pat) = a ++ rep := by
  intro a
  induction a with
  | nil =>
    intro fuel hfuel _
    cases pat with
    | nil => exact absurd rfl hp
    | cons p ps =>
      cases fuel with
      | zero => simp at hfuel
      | succ f =>
        rw [List.nil_append, replaceAllFuel, if_pos]
        · rw [List.drop_length, replaceAllFuel_nil, List.nil_append, List.append_nil]
        · exact ⟨hp, List.isPrefixOf_iff_prefix.mpr List.prefix_rfl⟩
  | cons c a' ih =>
    intro fuel hfuel hocc
    cases fuel with
    | zero => simp at hfuel
    | succ f =>
      have hocc2 : hasOccur pat (c :: (a' ++ pat.dropLast)) = false := by
        rw [← List.cons_append]; exact hocc
      have hocc' : hasOccur pat (a' ++ pat.dropLast) = false :=
        (hasOccur_cons_false pat c _ hocc2).2
      have hnotpre : ¬ (pat <+: (c :: a') ++ pat) := by
        intro hpre
        have hlen : pat.length ≤ (c :: a').length + (pat.length - 1) := by
          have := List.length_pos.mpr hp
          simp only [List.length_cons]
          omega
        have htake : ((c :: a') ++ pat).take ((c :: a').length + (pat.length - 1)) =
            (c :: a') ++ pat.dropLast := by
          rw [List.take_append, pat.dropLast_eq_take]
        have hpre2 : pat <+: (c :: a') ++ pat.dropLast := by
          rw [← htake]
          exact List.prefix_take_iff.mpr ⟨hpre, hlen⟩
        have := hasOccur_of_prefix pat _ hp hpre2
        rw [List.cons_append] at this
        rw [this] at hocc2
        exact Bool.noConfusion hocc2
      rw [List.cons_append, replaceAllFuel, if_neg, ih f (by simp at hfuel ⊢; omega) hocc']
      · rfl
      · rintro ⟨-, hpre⟩
        rw [← List.cons_append] at hpre
        exact hnotpre (List.isPrefixOf_iff_prefix.mp hpre)

theorem replaceAll_append_pat (pat rep : List Char) (hp : pat ≠ [])
    (a : List Char) (hocc : hasOccur pat (a ++ pat.dropLast) = false) :
    replaceAll pat rep (a ++ pat) = a ++ rep :=
  replaceAllFuel_append_pat pat rep hp a (a ++ pat).length (Nat.le_refl _) hocc

theorem suffix_replaceAllFuel (pat rep : List Char) (hp : pat ≠ [])
    (hb : sinBorde pat = true) :
    ∀ (fuel : Nat) (s : List Char), s.length ≤ fuel → pat <:+ s →
      rep <:+ replaceAllFuel pat rep fuel s := by
  intro fuel
  induction fuel with
  | zero =>
    intro s hlen hsuf
    have hnil : s = [] := List.length_eq_zero.mp (Nat.le_zero.mp hlen)
    subst hnil
    exact absurd (List.suffix_nil.mp hsuf) hp
  | succ f ih =>
    intro s hlen hsuf
    cases s with
    | nil => exact absurd (List.suffix_nil.mp hsuf) hp
    | cons c rest =>
      by_cases hpre : pat.isPrefixOf (c :: rest) = true
      · rw [replaceAllFuel, if_pos ⟨hp, hpre⟩]
        have hpre' : pat <+: c :: rest := List.isPrefixOf_iff_prefix.mp hpre
        have hsplit : pat ++ (c :: rest).drop pat.length = c :: rest := by
          conv_rhs => rw [← List.take_append_drop pat.length (c :: rest)]
          rw [← List.prefix_iff_eq_take.mp hpre']
        by_cases hdnil : (c :: rest).drop pat.length = []
        · rw [hdnil, replaceAllFuel_nil, List.append_nil]
        · obtain ⟨u, hu⟩ := hsuf
          have hlens : u.length + pat.length = rest.length + 1 := by
            have h1 := congrArg List.length hu
            simpa [List.length_append] using h1
          have hlend : pat.length + ((c :: rest).drop pat.length).length
              = rest.length + 1 := by
            have h2 := congrArg List.length hsplit
            simpa [List.length_append] using h2
          have hpatd : pat <:+ (c :: rest).drop pat.length := by
            rcases le_or_lt pat.length u.length with hle | hlt
            · have hdrop : (u ++ pat).drop pat.length = u.drop pat.length ++ pat :=
                List.drop_append_of_le_length hle
              rw [hu] at hdrop
              exact ⟨u.drop pat.length, hdrop.symm⟩
            · exfalso
              have hune : u ≠ [] := by
                intro h0
                subst h0
                rw [List.nil_append] at hu
                rw [← hu, List.drop_length] at hdnil
                exact hdnil rfl
              have hupos : 0 < u.length := List.length_pos.mpr hune
              have h1 : (c :: rest).drop u.length = pat := by
                rw [← hu, List.drop_left]
              have h2 : (c :: rest).drop u.length =
                  pat.drop u.length ++ (c :: rest).drop pat.length := by
                rw [← hsplit, List.drop_append_of_le_length (Nat.le_of_lt hlt),
                  List.drop_left]
              have hborder : pat.drop u.length <+: pat :=
                ⟨(c :: rest).drop pat.length, by rw [← h2, h1]⟩
              exact sinBorde_spec pat hb u.length hupos hlt hborder
          have hdlen : ((c :: rest).drop pat.length).length ≤ f := by
            have hppos := List.length_pos.mpr hp
            simp only [List.length_cons] at hlen
            omega
          exact (ih _ hdlen hpatd).trans (List.suffix_append rep _)
      · rw [replaceAllFuel, if_neg (fun h => hpre h.2)]
        obtain ⟨u, hu⟩ := hsuf
        cases u with
        | nil =>
          rw [List.nil_append] at hu
          exact absurd (List.isPrefixOf_iff_prefix.mpr (hu ▸ List.prefix_rfl)) hpre
        | cons c0 u' =>
          have hu' : u' ++ pat = rest := by
            rw [List.cons_append] at hu
            exact (List.cons.injEq _ _ _ _ ▸ hu).2
          have hrest : pat <:+ rest := ⟨u', hu'⟩
          have hrl : rest.length ≤ f := by
            simp only [List.length_cons] at hlen
            omega
          exact (ih rest hrl hrest).trans (List.suffix_cons c _)

theorem suffix_replaceAll (pat rep s : List Char) (hp : pat ≠ [])
    (hb : sinBorde pat = true) (h : pat <:+ s) :
    rep <:+ replaceAll pat rep s :=
  suffix_replaceAllFuel pat rep hp hb s.length s (Nat.le_refl _) h

theorem suffix_preserved_replaceAllFuel (pat rep t : List Char) (hp : pat ≠ [])
    (ht : hasOccur pat t = false) (hs : sinSolape pat t = true) :
    ∀ (fuel : Nat) (s : List Char), s.length ≤ fuel → t <:+ s →
      t <:+ replaceAllFuel pat rep fuel s := by
  intro fuel
  induction fuel with
  | zero =>
    intro s hlen hsuf
    exact hsuf
  | succ f ih =>
    intro s hlen hsuf
    rcases Nat.eq_or_lt_of_le (List.IsSuffix.length_le hsuf) with heq | hlt
    · have hts : t = s := List.IsSuffix.eq_of_length hsuf heq
      rw [replaceAllFuel_of_hasOccur_false pat rep s (hts ▸ ht)]
      exact hsuf
    · obtain ⟨u, hu⟩ := hsuf
      have hune : u ≠ [] := by
        intro h0
        subst h0
        rw [List.nil_append] at hu
        subst hu
        omega
      cases s with
      | nil =>
        exact absurd hu (by simp [hune])
      | cons c rest =>
        by_cases hpre : pat.isPrefixOf (c :: rest) = true
        · rw [replaceAllFuel, if_pos ⟨hp, hpre⟩]
          have hpre' : pat <+: c :: rest := List.isPrefixOf_iff_prefix.mp hpre
          have hsplit : pat ++ (c :: rest).drop pat.length = c :: rest := by
            conv_rhs => rw [← List.take_append_drop pat.length (c :: rest)]
            rw [← List.prefix_iff_eq_take.mp hpre']
          rcases le_or_lt pat.length u.length with hle | hlt2
          · have hdrop : (u ++ t).drop pat.length = u.drop pat.length ++ t :=
              List.drop_append_of_le_length hle
            rw [hu] at hdrop
            have htd : t <:+ (c :: rest).drop pat.length := ⟨u.drop pat.length, hdrop.symm⟩
            have hdlen : ((c :: rest).drop pat.length).length ≤ f := by
              have hppos := List.length_pos.mpr hp
              simp only [List.length_cons] at hlen
              simp only [List.length_drop, List.length_cons]
              omega
            exact (ih _ hdlen htd).trans (List.suffix_append rep _)
          · exfalso
            have hupos : 0 < u.length := List.length_pos.mpr hune
            have hplen : pat.length ≤ rest.length + 1 := by
              have := List.IsPrefix.length_le hpre'
              simpa using this
            have hlens : u.length + t.length = rest.length + 1 := by
              have h1 := congrArg List.length hu
              simpa [List.length_append] using h1
            have hk3 : pat.length - u.length ≤ t.length := by omega
            have h1 : (c :: rest).drop u.length = t := by
              rw [← hu, List.drop_left]
            have h2 : (c :: rest).drop u.length =
                pat.drop u.length ++ (c :: rest).drop pat.length := by
              rw [← hsplit, List.drop_append_of_le_length (Nat.le_of_lt hlt2),
                List.drop_left]
            have h3 : t.take (pat.length - u.length) = pat.drop u.length := by
              rw [← h1, h2]
              exact List.take_left' (by rw [List.length_drop])
            refine sinSolape_spec pat t hs (pat.length - u.length) (by omega)
              (by omega) hk3 ?_
            rw [h3]
            congr 1
            omega
        · rw [replaceAllFuel, if_neg (fun h => hpre h.2)]
          cases u with
          | nil => exact absurd rfl hune
          | cons c0 u' =>
            have hu' : u' ++ t = rest := by
              rw [List.cons_append] at hu
              exact (List.cons.injEq _ _ _ _ ▸ hu).2
            have hrest : t <:+ rest := ⟨u', hu'⟩
            have hrl : rest.length ≤ f := by
              simp only [List.length_cons] at hlen
              omega
            exact (ih rest hrl hrest).trans (List.suffix_cons c _)

theorem suffix_preserved_replaceAll (pat rep t s : List Char) (hp : pat ≠ [])
    (ht : hasOccur pat t = false) (hs : sinSolape pat t = true) (h : t <:+ s) :
    t <:+ replaceAll pat rep s :=
  suffix_preserved_replaceAllFuel pat rep t hp ht hs s.length s (Nat.le_refl _) h

theorem hasOccur_append_false (pat : List Char) (hp : pat ≠ []) :
    ∀ (a b : List Char), hasOccur pat a = false → hasOccur pat b = false →
      (∀ j, 0 < j → j < pat.length → ¬ (pat.take j <:+ a ∧ pat.drop j <+: b)) →
      hasOccur pat (a ++ b) = false := by
  intro a
  induction a with
  | nil =>
    intro b _ hb _
    simpa using hb
  | cons c a' ih =>
    intro b ha hb hstr
    obtain ⟨-, ha2⟩ := hasOccur_cons_false pat c a' ha
    rw [List.cons_append]
    have htail : hasOccur pat (a' ++ b) = false :=
      ih b ha2 hb (fun j h1 h2 hc => hstr j h1 h2 ⟨hc.1.trans (List.suffix_cons c a'), hc.2⟩)
    have hhead : pat.isPrefixOf (c :: (a' ++ b)) = false := by
      rw [Bool.eq_false_iff]
      intro hpre
      have hpre' : pat <+: (c :: a') ++ b := by
        rw [List.cons_append]
        exact List.isPrefixOf_iff_prefix.mp hpre
      rcases le_or_lt pat.length (c :: a').length with hle | hlt
      · have htk : pat = ((c :: a') ++ b).take pat.length :=
          List.prefix_iff_eq_take.mp hpre'
        rw [List.take_append_of_le_length hle] at htk
        have : pat <+: c :: a' := htk ▸ List.take_prefix pat.length (c :: a')
        have := hasOccur_of_prefix pat (c :: a') hp this
        rw [this] at ha
        exact Bool.noConfusion ha
      · have hap : (c :: a') <+: pat :=
          List.prefix_of_prefix_length_le (List.prefix_append (c :: a') b) hpre'
            (Nat.le_of_lt hlt)
        have htk : c :: a' = pat.take (c :: a').length :=
          List.prefix_iff_eq_take.mp hap
        refine hstr (c :: a').length (by simp) hlt ⟨?_, ?_⟩
        · rw [← htk]
        · have hsplitp : pat.take (c :: a').length ++ pat.drop (c :: a').length = pat :=
            List.take_append_drop _ pat
          rw [← htk] at hsplitp
          rw [← hsplitp] at hpre'
          exact (List.prefix_append_right_inj (c :: a')).mp hpre'
    rw [hasOccur, hhead, htail]
    rfl

theorem straddle_of_cola (pat b : List Char) (h : sinColaPrefijo pat b = true) :
    ∀ (a : List Char) (j : Nat), 0 < j → j < pat.length →
      ¬ (pat.take j <:+ a ∧ pat.drop j <+: b) :=
  fun _ j h1 h2 hc => sinColaPrefijo_spec pat b h j h1 h2 hc.2

theorem hasOccur_cons_false_of_head (pat : List Char) (c : Char) (l : List Char)
    (hp : pat ≠ []) (hhead : pat.head? ≠ some c)
    (htail : hasOccur pat l = false) : hasOccur pat (c :: l) = false := by
  cases pat with
  | nil => exact absurd rfl hp
  | cons q qs =>
    have hq : q ≠ c := by
      intro h0
      exact hhead (by rw [h0]; rfl)
    rw [hasOccur, htail]
    simp [List.isPrefixOf, hq]

/-! ### Claims C2 and C3: rotator idempotence and strict age threshold -/

theorem noCandidato_de_superseded (archivo : List Char)
    (h : "-old.rsc".data <:+ archivo ∨ "-old.backup".data <:+ archivo) :
    esCandidato archivo = false := by
  have hB : ("-old.rsc".data.isSuffixOf archivo
      || "-old.backup".data.isSuffixOf archivo) = true := by
    rcases h with h | h
    · rw [List.isSuffixOf_iff_suffix.mpr h]
      exact Bool.true_or _
    · rw [List.isSuffixOf_iff_suffix.mpr h]
      exact Bool.or_true _
  simp only [esCandidato, hB, Bool.not_true, Bool.and_false]

theorem esCandidato_nuevoNombre (archivo : List Char)
    (h : esCandidato archivo = true) :
    esCandidato (nuevoNombre archivo) = false := by
  have h1 : (".rsc".data <:+ archivo) ∨ (".backup".data <:+ archivo) := by
    simp only [esCandidato, Bool.and_eq_true, Bool.or_eq_true] at h
    rcases h.1 with ha | hb
    · exact Or.inl (List.isSuffixOf_iff_suffix.mp ha)
    · exact Or.inr (List.isSuffixOf_iff_suffix.mp hb)
  apply noCandidato_de_superseded
  rcases h1 with hrsc | hbak
  · left
    have s1 : "-old.rsc".data <:+ replaceAll ".rsc".data "-old.rsc".data archivo :=
      suffix_replaceAll ".rsc".data "-old.rsc".data archivo (by decide) (by decide) hrsc
    exact suffix_preserved_replaceAll ".backup".data "-old.backup".data "-old.rsc".data _
      (by decide) (by decide) (by decide) s1
  · right
    have s1 : ".backup".data <:+ replaceAll ".rsc".data "-old.rsc".data archivo :=
      suffix_preserved_replaceAll ".rsc".data "-old.rsc".data ".backup".data archivo
        (by decide) (by decide) (by decide) hbak
    exact suffix_replaceAll ".backup".data "-old.backup".data _ (by decide) (by decide) s1

theorem renombrarUno_idem (ahora : ℚ) (f : FileEntry) :
    (renombrarUno ahora (renombrarUno ahora f).1).2 = false := by
  by_cases hc : esCandidato f.nombre = true
  · by_cases ha : antiguedadDias ahora f.fechaCreacion > (DIAS_MAXIMOS : ℚ)
    · have h1 : renombrarUno ahora f = (⟨nuevoNombre f.nombre, f.fechaCreacion⟩, true) := by
        unfold renombrarUno
        rw [if_pos hc, if_pos ha]
      rw [h1]
      show (renombrarUno ahora ⟨nuevoNombre f.nombre, f.fechaCreacion⟩).2 = false
      unfold renombrarUno
      rw [if_neg]
      intro hx
      rw [esCandidato_nuevoNombre f.nombre hc] at hx
      exact Bool.noConfusion hx
    · have h1 : renombrarUno ahora f = (f, false) := by
        unfold renombrarUno
        rw [if_pos hc, if_neg ha]
      rw [h1]
      show (renombrarUno ahora f).2 = false
      unfold renombrarUno
      rw [if_pos hc, if_neg ha]
  · have h1 : renombrarUno ahora f = (f, false) := by
      unfold renombrarUno
      rw [if_neg hc]
    rw [h1]
    show (renombrarUno ahora f).2 = false
    unfold renombrarUno
    rw [if_neg hc]

/-- C2: running the Retention Rotator twice in succession on the same
directory state is idempotent — the second run performs no renames —
because a file whose name already ends with the superseded variant of a
recognized extension is never a rotation candidate. -/
theorem c2_rotador_idempotente :
    (∀ (ahora : ℚ) (dir : List FileEntry),
      (renombrar_backups_antiguos ahora
        (renombrar_backups_antiguos ahora dir).1).2 = 0) ∧
    (∀ archivo : List Char,
      ("-old.rsc".data <:+ archivo ∨ "-old.backup".data <:+ archivo) →
      esCandidato archivo = false) := by
  refine ⟨?_, noCandidato_de_superseded⟩
  intro ahora dir
  induction dir with
  | nil => rfl
  | cons f resto ih =>
    simp [renombrar_backups_antiguos, renombrarUno_idem, ih]

theorem c2_rotador_idempotente_witness :
    esCandidato "edge1_20240101_latest-old.rsc".data = false :=
  c2_rotador_idempotente.2 "edge1_20240101_latest-old.rsc".data (Or.inl (by decide))

/-- C3: the age comparison against the threshold is strict greater-than: a
rotation candidate whose age is exactly `DIAS_MAXIMOS` days is not
renamed, while a candidate one day older than `DIAS_MAXIMOS` is. -/
theorem c3_umbral_estricto :
    ∀ (nombre : List Char) (fecha : ℚ), esCandidato nombre = true →
      (renombrarUno (fecha + (DIAS_MAXIMOS : ℚ) * (24 * 3600)) ⟨nombre, fecha⟩).2
        = false ∧
      (renombrarUno (fecha + ((DIAS_MAXIMOS : ℚ) + 1) * (24 * 3600)) ⟨nombre, fecha⟩).2
        = true := by
  intro nombre fecha hc
  have h6 : antiguedadDias (fecha + (DIAS_MAXIMOS : ℚ) * (24 * 3600)) fecha
      = (DIAS_MAXIMOS : ℚ) := by
    simp only [antiguedadDias]
    field_simp
  have h7 : antiguedadDias (fecha + ((DIAS_MAXIMOS : ℚ) + 1) * (24 * 3600)) fecha
      = (DIAS_MAXIMOS : ℚ) + 1 := by
    simp only [antiguedadDias]
    field_simp
  constructor
  · unfold renombrarUno
    rw [if_pos hc, if_neg]
    rw [h6]
    exact lt_irrefl _
  · unfold renombrarUno
    rw [if_pos hc, if_pos]
    rw [h7]
    exact lt_add_one _

theorem c3_umbral_estricto_witness :
    (renombrarUno ((0 : ℚ) + (DIAS_MAXIMOS : ℚ) * (24 * 3600))
      ⟨"a.rsc".data, 0⟩).2 = false ∧
    (renombrarUno ((0 : ℚ) + ((DIAS_MAXIMOS : ℚ) + 1) * (24 * 3600))
      ⟨"a.rsc".data, 0⟩).2 = true :=
  c3_umbral_estricto "a.rsc".data 0 (by decide)

/-! ### Claims C4 and C5: the shape of the rename and the naming round trip -/

theorem nuevoNombre_raiz_rsc (raiz : List Char)
    (h1 : hasOccur ".rsc".data raiz = false)
    (h2 : hasOccur ".backup".data raiz = false) :
    nuevoNombre (raiz ++ ".rsc".data) = raiz ++ "-old.rsc".data := by
  unfold nuevoNombre
  have e1 : replaceAll ".rsc".data "-old.rsc".data (raiz ++ ".rsc".data)
      = raiz ++ "-old.rsc".data := by
    have hdl : ".rsc".data.dropLast = ".rs".data := by decide
    refine replaceAll_append_pat ".rsc".data "-old.rsc".data (by decide) raiz ?_
    rw [hdl]
    exact hasOccur_append_false ".rsc".data (by decide) raiz ".rs".data h1 (by decide)
      (fun j hj1 hj2 hc =>
        sinColaPrefijo_spec ".rsc".data ".rs".data (by decide) j hj1 hj2 hc.2)
  rw [e1]
  exact replaceAll_of_hasOccur_false _ _ _
    (hasOccur_append_false ".backup".data (by decide) raiz "-old.rsc".data h2
      (by decide)
      (fun j hj1 hj2 hc =>
        sinColaPrefijo_spec ".backup".data "-old.rsc".data (by decide) j hj1 hj2 hc.2))

theorem nuevoNombre_raiz_backup (raiz : List Char)
    (h1 : hasOccur ".rsc".data raiz = false)
    (h2 : hasOccur ".backup".data raiz = false) :
    nuevoNombre (raiz ++ ".backup".data) = raiz ++ "-old.backup".data := by
  unfold nuevoNombre
  have e1 : replaceAll ".rsc".data "-old.rsc".data (raiz ++ ".backup".data)
      = raiz ++ ".backup".data :=
    replaceAll_of_hasOccur_false _ _ _
      (hasOccur_append_false ".rsc".data (by decide) raiz ".backup".data h1 (by decide)
        (fun j hj1 hj2 hc =>
          sinColaPrefijo_spec ".rsc".data ".backup".data (by decide) j hj1 hj2 hc.2))
  rw [e1]
  have hdl : ".backup".data.dropLast = ".backu".data := by decide
  refine replaceAll_append_pat ".backup".data "-old.backup".data (by decide) raiz ?_
  rw [hdl]
  exact hasOccur_append_false ".backup".data (by decide) raiz ".backu".data h2 (by decide)
    (fun j hj1 hj2 hc =>
      sinColaPrefijo_spec ".backup".data ".backu".data (by decide) j hj1 hj2 hc.2)

/-- C4 (counterexample): the rotation-candidate name ".rsc.rsc" is renamed
by the code to "-old.rsc-old.rsc" — the marker is inserted twice, and a
non-final part of the name is changed — instead of the single insertion
".rsc-old.rsc" before the final extension that the claim describes. -/
theorem c4_insercion_contraejemplo :
    esCandidato ".rsc.rsc".data = true ∧
    nuevoNombre ".rsc.rsc".data = "-old.rsc-old.rsc".data ∧
    nuevoNombre ".rsc.rsc".data ≠ ".rsc-old.rsc".data := by decide

/-- C4 (amended): for every rotation-candidate name in which the
recognized extension substrings ".rsc" and ".backup" occur nowhere except
as the final extension itself, the rename inserts "-old" exactly once,
immediately before that final extension, and changes no other part of the
name. -/
theorem c4_insercion_unica_amended :
    ∀ raiz : List Char,
      hasOccur ".rsc".data raiz = false →
      hasOccur ".backup".data raiz = false →
      nuevoNombre (raiz ++ ".rsc".data) = raiz ++ "-old.rsc".data ∧
      nuevoNombre (raiz ++ ".backup".data) = raiz ++ "-old.backup".data :=
  fun raiz h1 h2 =>
    ⟨nuevoNombre_raiz_rsc raiz h1 h2, nuevoNombre_raiz_backup raiz h1 h2⟩

theorem c4_insercion_unica_witness :
    nuevoNombre ("edge1_20240101_latest".data ++ ".rsc".data)
      = "edge1_20240101_latest".data ++ "-old.rsc".data :=
  (c4_insercion_unica_amended "edge1_20240101_latest".data
    (by decide) (by decide)).1

theorem straddle_of_cabeza (pat : List Char) (c : Char) (l : List Char)
    (h : colasSinCabeza pat c = true) :
    ∀ (a : List Char) (j : ℕ), 0 < j → j < pat.length →
      ¬ (pat.take j <:+ a ∧ pat.drop j <+: c :: l) := by
  intro a j hj1 hj2 hc
  have hall := List.all_eq_true.mp h j (List.mem_range.mpr hj2)
  simp only [Bool.or_eq_true, decide_eq_true_eq, Bool.not_eq_true',
    beq_eq_false_iff_ne, ne_eq] at hall
  rcases hall with h0 | h1
  · omega
  · cases hx : pat.drop j with
    | nil =>
      have hlenx := congrArg List.length hx
      simp only [List.length_drop, List.length_nil] at hlenx
      omega
    | cons q qs =>
      have hq : q = c := (List.cons_prefix_cons.mp (hx ▸ hc.2)).1
      rw [hx] at h1
      exact h1 (by rw [hq]; rfl)

theorem hasOccur_stem (pat : List Char) (hp : pat ≠ [])
    (hc1 : pat.head? ≠ some '_')
    (hlat : hasOccur pat "_latest".data = false)
    (hcab : colasSinCabeza pat '_' = true)
    (hcola : sinColaPrefijo pat "_latest".data = true)
    (r d : List Char) (hr : hasOccur pat r = false)
    (hd : hasOccur pat d = false) :
    hasOccur pat (r ++ "_".data ++ d ++ "_latest".data) = false := by
  have hassoc : r ++ "_".data ++ d ++ "_latest".data
      = r ++ ('_' :: (d ++ "_latest".data)) := by
    simp [List.append_assoc]
  rw [hassoc]
  refine hasOccur_append_false pat hp r ('_' :: (d ++ "_latest".data)) hr ?_ ?_
  · refine hasOccur_cons_false_of_head pat '_' _ hp hc1 ?_
    exact hasOccur_append_false pat hp d "_latest".data hd hlat
      (fun j hj1 hj2 hc =>
        sinColaPrefijo_spec pat "_latest".data hcola j hj1 hj2 hc.2)
  · exact fun j hj1 hj2 => straddle_of_cabeza pat '_' _ hcab r j hj1 hj2

theorem esCandidato_stem (pre : List Char) :
    esCandidato (pre ++ "_latest.rsc".data) = true := by
  have h1 : ".rsc".data <:+ pre ++ "_latest.rsc".data :=
    List.IsSuffix.trans (by decide) (List.suffix_append pre _)
  have h2 : ¬ ("-old.rsc".data <:+ pre ++ "_latest.rsc".data) := by
    intro h
    have h3 := List.suffix_of_suffix_length_le h
      (List.suffix_append pre "_latest.rsc".data) (by decide)
    exact absurd h3 (by decide)
  have h3 : ¬ ("-old.backup".data <:+ pre ++ "_latest.rsc".data) := by
    intro h
    have h4 := List.suffix_of_suffix_length_le h
      (List.suffix_append pre "_latest.rsc".data) (by decide)
    exact absurd h4 (by decide)
  have e1 : ".rsc".data.isSuffixOf (pre ++ "_latest.rsc".data) = true :=
    List.isSuffixOf_iff_suffix.mpr h1
  have e2 : "-old.rsc".data.isSuffixOf (pre ++ "_latest.rsc".data) = false := by
    rw [Bool.eq_false_iff]
    intro hx
    exact h2 (List.isSuffixOf_iff_suffix.mp hx)
  have e3 : "-old.backup".data.isSuffixOf (pre ++ "_latest.rsc".data) = false := by
    rw [Bool.eq_false_iff]
    intro hx
    exact h3 (List.isSuffixOf_iff_suffix.mp hx)
  simp [esCandidato, e1, e2, e3]

/-- C5 (counterexample): for the router name "a.rsc" and date stamp
"20240101" the fetch does produce "a.rsc_20240101_latest.rsc", but
rotating that file once old produces "a-old.rsc_20240101_latest-old.rsc",
not the "a.rsc_20240101_latest-old.rsc" that the claim requires for every
router name. -/
theorem c5_ida_vuelta_contraejemplo :
    nuevo_nombre_archivo "a.rsc".data "20240101".data "latest.rsc".data
      = "a.rsc_20240101_latest.rsc".data ∧
    (renombrarUno ((7 : ℚ) * (24 * 3600)) ⟨"a.rsc_20240101_latest.rsc".data, 0⟩)
      = (⟨"a-old.rsc_20240101_latest-old.rsc".data, 0⟩, true) ∧
    "a-old.rsc_20240101_latest-old.rsc".data ≠ "a.rsc_20240101_latest-old.rsc".data := by
  refine ⟨by decide, ?_, by decide⟩
  unfold renombrarUno
  rw [if_pos (by decide), if_pos]
  · decide
  · norm_num [antiguedadDias, DIAS_MAXIMOS]

/-- C5 (amended): for every router name `r` and date stamp `d` in which
neither ".rsc" nor ".backup" occurs as a substring, fetching "latest.rsc"
produces exactly the local name `r_d_latest.rsc`, and rotating that file
once its age exceeds the threshold renames it to exactly
`r_d_latest-old.rsc`. -/
theorem c5_ida_vuelta_amended :
    ∀ (r d : List Char),
      hasOccur ".rsc".data r = false → hasOccur ".backup".data r = false →
      hasOccur ".rsc".data d = false → hasOccur ".backup".data d = false →
      ∀ (ahora fecha : ℚ),
        antiguedadDias ahora fecha > (DIAS_MAXIMOS : ℚ) →
        nuevo_nombre_archivo r d "latest.rsc".data
          = (r ++ "_".data ++ d ++ "_latest".data) ++ ".rsc".data ∧
        renombrarUno ahora ⟨nuevo_nombre_archivo r d "latest.rsc".data, fecha⟩
          = (⟨(r ++ "_".data ++ d ++ "_latest".data) ++ "-old.rsc".data, fecha⟩, true) := by
  intro r d hr1 hr2 hd1 hd2 ahora fecha hviejo
  have htail1 : "_".data ++ "latest.rsc".data = "_latest".data ++ ".rsc".data := by
    decide
  have hname : nuevo_nombre_archivo r d "latest.rsc".data
      = (r ++ "_".data ++ d ++ "_latest".data) ++ ".rsc".data := by
    unfold nuevo_nombre_archivo
    simp only [List.append_assoc]
    rw [htail1]
  have hstem_assoc : (r ++ "_".data ++ d ++ "_latest".data) ++ ".rsc".data
      = (r ++ "_".data ++ d) ++ "_latest.rsc".data := by
    simp only [List.append_assoc]
    rfl
  have hcand : esCandidato (nuevo_nombre_archivo r d "latest.rsc".data) = true := by
    rw [hname, hstem_assoc]
    exact esCandidato_stem (r ++ "_".data ++ d)
  have hnn : nuevoNombre (nuevo_nombre_archivo r d "latest.rsc".data)
      = (r ++ "_".data ++ d ++ "_latest".data) ++ "-old.rsc".data := by
    rw [hname]
    exact nuevoNombre_raiz_rsc (r ++ "_".data ++ d ++ "_latest".data)
      (hasOccur_stem ".rsc".data (by decide) (by decide) (by decide) (by decide)
        (by decide) r d hr1 hd1)
      (hasOccur_stem ".backup".data (by decide) (by decide) (by decide) (by decide)
        (by decide) r d hr2 hd2)
  refine ⟨hname, ?_⟩
  unfold renombrarUno
  rw [if_pos hcand, if_pos hviejo]
  simp only [hnn]

theorem c5_ida_vuelta_witness :
    nuevo_nombre_archivo "edge1".data "20240101".data "latest.rsc".data
      = ("edge1".data ++ "_".data ++ "20240101".data ++ "_latest".data) ++ ".rsc".data ∧
    renombrarUno (604800 : ℚ)
        ⟨nuevo_nombre_archivo "edge1".data "20240101".data "latest.rsc".data, 0⟩
      = (⟨("edge1".data ++ "_".data ++ "20240101".data ++ "_latest".data)
          ++ "-old.rsc".data, 0⟩, true) :=
  c5_ida_vuelta_amended "edge1".data "20240101".data
    (by decide) (by decide) (by decide) (by decide) 604800 0
    (by norm_num [antiguedadDias, DIAS_MAXIMOS])

/-! ### Claims C7 and C8: the fetcher's error handling and session release -/

theorem descargar_archivo_res (o : OraculoRemoto) (archivo : List Char) :
    descargar_archivo o archivo =
      (.ok (), .intentoGet archivo ::
        (match o.get archivo with
         | .ok _ => [.infoDescargado archivo]
         | .error e => [.errorArchivo archivo e])) := by
  cases h : o.get archivo with
  | ok u => simp [descargar_archivo, h]
  | error e => cases e <;> simp [descargar_archivo, h]

theorem bucleDescargas_ok (o : OraculoRemoto) (remotos : List (List Char)) :
    ∀ lst, (bucleDescargas o remotos lst).1 = Except.ok () := by
  intro lst
  induction lst with
  | nil => rfl
  | cons archivo resto ih =>
    by_cases hm : archivo ∈ remotos
    · simp only [bucleDescargas, if_pos hm, descargar_archivo_res]
      exact ih
    · simp only [bucleDescargas, if_neg hm]
      exact ih

theorem bucleDescargas_cons_eq (o : OraculoRemoto) (remotos : List (List Char))
    (archivo : List Char) (resto : List (List Char)) :
    bucleDescargas o remotos (archivo :: resto) =
      (.ok (), (if archivo ∈ remotos then (descargar_archivo o archivo).2
                else [.avisoFaltante archivo]) ++ (bucleDescargas o remotos resto).2) := by
  by_cases hm : archivo ∈ remotos
  · simp only [bucleDescargas, if_pos hm, descargar_archivo_res]
    refine Prod.ext ?_ ?_
    · exact bucleDescargas_ok o remotos resto
    · rfl
  · simp only [bucleDescargas, if_neg hm]
    refine Prod.ext ?_ ?_
    · exact bucleDescargas_ok o remotos resto
    · rfl

theorem descargar_archivos_ok_eventos (o : OraculoRemoto)
    (hok : (cuerpoDescargas o).1 = .ok ()) :
    descargar_archivos o =
      (.ok (), (cuerpoDescargas o).2 ++ [.cierreSesion]) := by
  unfold descargar_archivos
  rcases hcu : cuerpoDescargas o with ⟨res, evs⟩
  rw [hcu] at hok
  simp only at hok
  rw [hok]

/-- C7: `descargar_archivos` never lets an exception escape: whatever the
outcome of opening the SFTP session, of the remote listing and of each
per-file transfer (file not found, permission denied, SSH error, OS
error), the call returns normally; each per-file failure is caught and
logged with the file name; and a failure on one allow-listed file does
not prevent the transfer attempt for the sibling file. -/
theorem c7_nunca_propaga :
    ∀ (o : OraculoRemoto),
      (descargar_archivos o).1 = Except.ok () ∧
      (∀ (remotos : List (List Char)) (archivo : List Char) (e : ErrorRemoto),
        o.abrirSftp = .ok () → o.listdir = .ok remotos →
        archivo ∈ archivos_deseados → archivo ∈ remotos →
        o.get archivo = .error e →
        EventoDescarga.errorArchivo archivo e ∈ (descargar_archivos o).2) ∧
      (∀ (remotos : List (List Char)),
        o.abrirSftp = .ok () → o.listdir = .ok remotos →
        "latest.backup".data ∈ remotos →
        EventoDescarga.intentoGet "latest.backup".data ∈ (descargar_archivos o).2) := by
  intro o
  refine ⟨?_, ?_, ?_⟩
  · unfold descargar_archivos
    rcases hcu : cuerpoDescargas o with ⟨res, evs⟩
    cases res with
    | ok u => rfl
    | error e => cases e <;> rfl
  · intro remotos archivo e ha hl hdes hrem hget
    have hcu : cuerpoDescargas o = bucleDescargas o remotos archivos_deseados := by
      simp only [cuerpoDescargas, ha, hl]
    have hok : (cuerpoDescargas o).1 = .ok () := by
      rw [hcu]
      exact bucleDescargas_ok o remotos archivos_deseados
    rw [descargar_archivos_ok_eventos o hok, hcu]
    simp only [archivos_deseados] at hdes ⊢
    rw [bucleDescargas_cons_eq, bucleDescargas_cons_eq]
    rcases List.mem_cons.mp hdes with h1 | h1
    · subst h1
      simp only [if_pos hrem, descargar_archivo_res, hget]
      simp
    · have h2 : archivo = "latest.backup".data := by
        simpa using h1
      subst h2
      simp only [if_pos hrem, descargar_archivo_res, hget]
      simp
  · intro remotos ha hl hrem
    have hcu : cuerpoDescargas o = bucleDescargas o remotos archivos_deseados := by
      simp only [cuerpoDescargas, ha, hl]
    have hok : (cuerpoDescargas o).1 = .ok () := by
      rw [hcu]
      exact bucleDescargas_ok o remotos archivos_deseados
    rw [descargar_archivos_ok_eventos o hok, hcu]
    simp only [archivos_deseados]
    rw [bucleDescargas_cons_eq, bucleDescargas_cons_eq]
    simp only [if_pos hrem, descargar_archivo_res]
    simp

theorem c7_nunca_propaga_witness :
    EventoDescarga.errorArchivo "latest.rsc".data ErrorRemoto.errorSSH ∈
      (descargar_archivos ⟨.ok (), .ok archivos_deseados,
        fun a => if a = "latest.rsc".data then .error .errorSSH else .ok ()⟩).2 ∧
    EventoDescarga.intentoGet "latest.backup".data ∈
      (descargar_archivos ⟨.ok (), .ok archivos_deseados,
        fun a => if a = "latest.rsc".data then .error .errorSSH else .ok ()⟩).2 :=
  ⟨(c7_nunca_propaga _).2.1 archivos_deseados "latest.rsc".data .errorSSH rfl rfl
      (by decide) (by decide) rfl,
   (c7_nunca_propaga _).2.2 archivos_deseados rfl rfl (by decide)⟩

theorem cuentaCierres_append (a b : List EventoDescarga) :
    cuentaCierres (a ++ b) = cuentaCierres a + cuentaCierres b := by
  simp [cuentaCierres, List.filter_append]

theorem cuentaCierres_bucle (o : OraculoRemoto) (remotos : List (List Char)) :
    ∀ lst, cuentaCierres (bucleDescargas o remotos lst).2 = 0 := by
  intro lst
  induction lst with
  | nil => rfl
  | cons archivo resto ih =>
    rw [bucleDescargas_cons_eq]
    simp only [cuentaCierres_append, ih]
    by_cases hm : archivo ∈ remotos
    · rw [if_pos hm, descargar_archivo_res]
      cases o.get archivo <;> simp [cuentaCierres]
    · rw [if_neg hm]
      simp [cuentaCierres]

theorem cuentaCierres_cuerpo (o : OraculoRemoto) :
    cuentaCierres (cuerpoDescargas o).2 = 0 := by
  unfold cuerpoDescargas
  cases o.abrirSftp with
  | error e => rfl
  | ok u =>
    cases o.listdir with
    | error e => rfl
    | ok remotos => exact cuentaCierres_bucle o remotos archivos_deseados

/-- C8: on every exit path of `descargar_archivos` — normal return,
exception while opening the SFTP session or listing, or exception during
a transfer — the SSH session is closed exactly once by the time the call
completes. -/
theorem c8_cierre_exactamente_uno :
    ∀ (o : OraculoRemoto), cuentaCierres (descargar_archivos o).2 = 1 := by
  intro o
  rcases hcu : cuerpoDescargas o with ⟨res, evs⟩
  have hevs : cuentaCierres evs = 0 := by
    have h := cuentaCierres_cuerpo o
    rw [hcu] at h
    exact h
  have hsolo : cuentaCierres [EventoDescarga.cierreSesion] = 1 := rfl
  have hext : ∀ e, cuentaCierres [EventoDescarga.errorExterno e] = 0 := fun e => rfl
  cases res with
  | ok u =>
    simp [descargar_archivos, hcu, cuentaCierres_append, hevs, hsolo]
  | error e =>
    cases e <;>
      simp [descargar_archivos, hcu, esOSError, cuentaCierres_append, hevs, hsolo, hext] <;>
      rfl

/-! ### Claim C6: how the router list is read -/

/-- C6 (counterexample): on a router list whose second record is
malformed, the run does abort fatally — but the job for the first record
has already been dispatched while the list was still being read, refuting
both "reads the router list fully into memory before dispatching any
backup job" and "no backup job is dispatched before the list read
completes". -/
theorem c6_lectura_contraejemplo :
    EventoOrq.abortoConfig ∈
      leerYDespachar (.contenido [["10.0.0.1".data, "r1".data], ["oops".data]]) ∧
    despachos
      (leerYDespachar (.contenido [["10.0.0.1".data, "r1".data], ["oops".data]]))
      = 1 := by
  decide

/-- C6 (amended): the orchestrator streams the router list record by
record, dispatching each well-formed record as soon as it is read.  A
missing list file aborts fatally before anything is dispatched; a
malformed record aborts the run fatally at that record — these reads are
the one aborting failure — but the jobs for the records preceding it
have already been dispatched. -/
theorem c6_lectura_amended :
    leerYDespachar .ausente = [.abortoConfig] ∧
    ∀ filas : List Fila,
      procesarFilas filas =
        (filas.takeWhile filaBienFormada).map despachoDe ++
          (if filas.all filaBienFormada then [] else [.abortoConfig]) := by
  refine ⟨rfl, ?_⟩
  intro filas
  induction filas with
  | nil => rfl
  | cons f resto ih =>
    rcases f with - | ⟨x, - | ⟨y, resto2⟩⟩
    · simp [procesarFilas, filaBienFormada]
    · simp [procesarFilas, filaBienFormada]
    · simp [procesarFilas, filaBienFormada, despachoDe, ih]

/-! ### Claim C10: the listed directory versus the fetched directory -/

/-- C10: the allow-list membership test uses a listing of the session's
current working directory ("."), while every download retrieves the
absolute root path "/<name>"; the directory that is listed and the
directory that is fetched from coincide exactly when the session's
working directory is the remote root. -/
theorem c10_listado_vs_descarga :
    ∀ (cwd archivo : List Char), archivo ∈ archivos_deseados →
      rutaListado = ".".data ∧
      rutaRemota archivo = '/' :: archivo ∧
      resolver cwd rutaListado = cwd ∧
      resolver cwd (rutaRemota archivo) = '/' :: archivo ∧
      (directorioDe (resolver cwd (rutaRemota archivo)) = resolver cwd rutaListado
        ↔ cwd = "/".data) := by
  intro cwd archivo hmem
  have h2 : resolver cwd rutaListado = cwd := rfl
  have h1 : resolver cwd (rutaRemota archivo) = '/' :: archivo := rfl
  refine ⟨rfl, rfl, h2, h1, ?_⟩
  have hd : directorioDe ('/' :: archivo) = "/".data := by
    simp only [archivos_deseados, List.mem_cons, List.not_mem_nil, or_false] at hmem
    rcases hmem with h | h <;> subst h <;> decide
  rw [h1, h2, hd]
  exact eq_comm

theorem c10_listado_vs_descarga_witness :
    directorioDe (resolver "/home".data (rutaRemota "latest.rsc".data))
        = resolver "/home".data rutaListado ↔ "/home".data = "/".data :=
  (c10_listado_vs_descarga "/home".data "latest.rsc".data (by decide)).2.2.2.2

/-! ### Claims C1 and C9: the barrier and the worker-pool bound -/

theorem invariante_fleet (n : ℕ) :
    ∀ s : Fleet, Alcanzable n s →
      s.porLeer + s.enCola + s.conectando + s.sesionAbierta + s.terminados = n ∧
      s.conectando + s.sesionAbierta ≤ MAX_WORKERS ∧
      s.rotaciones ≤ 1 ∧
      (s.rotaciones = 1 → s.porLeer = 0 ∧ s.enCola = 0 ∧ s.conectando = 0 ∧
        s.sesionAbierta = 0 ∧ s.terminados = n) := by
  intro s hs
  induction hs with
  | inicio => simp [inicial, MAX_WORKERS]
  | paso hs' hp ih =>
    cases hp <;> simp_all [MAX_WORKERS] <;> omega

/-- C9: at every reachable point of a run, for any router list, at most
`MAX_WORKERS` (4) sessions are open concurrently. -/
theorem c9_limite_sesiones :
    ∀ (n : ℕ) (s : Fleet), Alcanzable n s → s.sesionAbierta ≤ MAX_WORKERS := by
  intro n s hs
  have h := invariante_fleet n s hs
  exact le_trans (Nat.le_add_left _ _) h.2.1

theorem c9_limite_sesiones_witness :
    (⟨9, 0, 0, 1, 0, 0⟩ : Fleet).sesionAbierta ≤ MAX_WORKERS :=
  c9_limite_sesiones 10 ⟨9, 0, 0, 1, 0, 0⟩
    (Alcanzable.paso
      (Alcanzable.paso
        (Alcanzable.paso Alcanzable.inicio (Paso.submit 9 0 0 0 0 0))
        (Paso.iniciar 9 0 0 0 0 0 (by decide)))
      (Paso.conectarOk 9 0 0 0 0 0))

/-- C1: in every run, the Retention Rotator runs at most once; when it has
run, every dispatched job had already completed (the barrier: nothing is
still queued, connecting or fetching, and all `n` jobs are finished); and
every completed (stuck) run has run it exactly once. -/
theorem c1_barrera_rotacion :
    ∀ (n : ℕ) (s : Fleet), Alcanzable n s →
      s.rotaciones ≤ 1 ∧
      (s.rotaciones = 1 → s.enCola = 0 ∧ s.conectando = 0 ∧
        s.sesionAbierta = 0 ∧ s.porLeer = 0 ∧ s.terminados = n) ∧
      ((¬ ∃ s', Paso s s') → s.rotaciones = 1) := by
  intro n s hs
  have h := invariante_fleet n s hs
  refine ⟨h.2.2.1, fun hr => ?_, fun hstuck => ?_⟩
  · have h4 := h.2.2.2 hr
    exact ⟨h4.2.1, h4.2.2.1, h4.2.2.2.1, h4.1, h4.2.2.2.2⟩
  · by_contra hne
    apply hstuck
    obtain ⟨r, q, c, se, t, rot⟩ := s
    have hrot0 : rot = 0 := by
      have hle := h.2.2.1
      simp only at hle hne
      omega
    subst hrot0
    cases r with
    | succ r' => exact ⟨_, Paso.submit r' q c se t 0⟩
    | zero =>
      cases q with
      | succ q' =>
        by_cases hw : c + se < MAX_WORKERS
        · exact ⟨_, Paso.iniciar 0 q' c se t 0 hw⟩
        · cases c with
          | succ c' => exact ⟨_, Paso.conectarFalla 0 (q' + 1) c' se t 0⟩
          | zero =>
            cases se with
            | succ se' => exact ⟨_, Paso.terminarDescarga 0 (q' + 1) 0 se' t 0⟩
            | zero =>
              exfalso
              simp only [MAX_WORKERS] at hw
              omega
      | zero =>
        cases c with
        | succ c' => exact ⟨_, Paso.conectarFalla 0 0 c' se t 0⟩
        | zero =>
          cases se with
          | succ se' => exact ⟨_, Paso.terminarDescarga 0 0 0 se' t 0⟩
          | zero => exact ⟨_, Paso.rotar t⟩

theorem c1_barrera_rotacion_witness :
    (⟨0, 0, 0, 0, 1, 1⟩ : Fleet).terminados = 1 :=
  ((c1_barrera_rotacion 1 ⟨0, 0, 0, 0, 1, 1⟩
    (Alcanzable.paso
      (Alcanzable.paso
        (Alcanzable.paso
          (Alcanzable.paso
            (Alcanzable.paso Alcanzable.inicio (Paso.submit 0 0 0 0 0 0))
            (Paso.iniciar 0 0 0 0 0 0 (by decide)))
          (Paso.conectarOk 0 0 0 0 0 0))
        (Paso.terminarDescarga 0 0 0 0 0 0))
      (Paso.rotar 1))).2.1 rfl).2.2.2.2

end BackupMkt
